import Mathlib

/-!
# Verification of the s2fft core: Wigner-d recursion and spherical transforms

Shallow embedding of the repository's core modules:

* `s2fft/wigner/turok.py` — Turok Wigner-d recursion (`compute_full`,
  `compute_spin_slice`, `turok_quarter`, `turok_quarter_spin`, `turok_fill`);
* `s2fft/transform.py` — inverse transforms (`inverse_direct`, `inverse_sov`,
  `inverse_sov_fft`) and `forward_direct`;
* `s2fft/utils.py` — the flat/triangular coefficient reindexing
  (`flm_2d_to_1d`, `flm_1d_to_2d`).

Machine floats are embedded as exact real numbers (`ℝ`/`ℂ`); numpy arrays as
total functions that are zero outside the populated region; python exceptions
as `Except` values.  The collaborator modules `s2fft.samples`/`s2fft.sampling`
and `s2fft.wigner.risbo` are not part of the sources; they are modelled from
the specification where a claim needs them (each such definition is marked
`Modelled from the spec:`).
-/

namespace S2fft

/-- Error taxonomy of the spec (§7): every `ValueError` raised by the core
belongs to one of these classes. -/
inductive S2Error where
  | invalidBandlimit : S2Error
  | spinExceedsDegree : S2Error
  | unsupportedSampling : S2Error
  deriving DecidableEq, Repr

/-- The closed enumeration of sampling-scheme tags used by the transform
engine: `mw` (equiangular-default), `mwss` (equiangular-with-pole),
`dh` (driscoll-healy). -/
inductive Scheme where
  | mw : Scheme
  | mwss : Scheme
  | dh : Scheme
  deriving DecidableEq, Repr

/-- Modelled from the spec: the Coefficient Index Map collaborator
(`samples.elm2ind`, not under the sources).  The source docstrings in
`utils.py` pin the flat layout `1D = [f(0,0), f(1,-1), f(1,0), f(1,1), …]`,
i.e. offset `el² + el + m`. -/
def elm2ind (el : ℕ) (m : ℤ) : ℕ := ((el : ℤ) ^ 2 + el + m).toNat

/-- Modelled from the spec: `samples.ncoeff L` — the number of valid
`(el, m)` pairs with `0 ≤ el < L`, `-el ≤ m ≤ el`, which is `L²`. -/
def ncoeff (L : ℕ) : ℕ := L * L

/-- `utils.flm_1d_to_2d`: dense triangular `L × (2L-1)` table with entry
`(el, L-1+m)` read from flat offset `elm2ind el m`; entries outside the valid
triangle are zero (the numpy array is allocated with `np.zeros`). -/
def flm_1d_to_2d (flm1d : ℕ → ℂ) (L : ℕ) : ℕ → ℕ → ℂ := fun el c =>
  if el < L ∧ L - 1 - el ≤ c ∧ c ≤ L - 1 + el then
    flm1d (elm2ind el ((c : ℤ) - (L - 1 : ℕ)))
  else 0

/-- `utils.flm_2d_to_1d`: flat vector of length `ncoeff L` with offset
`elm2ind el m` read from table entry `(el, L-1+m)`.  The loop writes exactly
the offsets `i < L²`; the unique `(el, m)` with `elm2ind el m = i` has
`el = Nat.sqrt i` and `m = i - el² - el`. -/
def flm_2d_to_1d (flm2d : ℕ → ℕ → ℂ) (L : ℕ) : ℕ → ℂ := fun i =>
  if i < ncoeff L then
    flm2d (Nat.sqrt i) (L - 1 + i - (Nat.sqrt i ^ 2 + Nat.sqrt i))
  else 0

lemma elm2ind_cast (el : ℕ) (m : ℤ) (hm : -(el : ℤ) ≤ m) :
    (elm2ind el m : ℤ) = (el : ℤ) ^ 2 + el + m := by
  unfold elm2ind
  rw [Int.toNat_of_nonneg]
  nlinarith [sq_nonneg ((el : ℤ))]

lemma elm2ind_lt (el : ℕ) (m : ℤ) (hm : -(el : ℤ) ≤ m) (hm' : m ≤ el) (L : ℕ)
    (hel : el < L) : elm2ind el m < ncoeff L := by
  have h := elm2ind_cast el m hm
  have : (elm2ind el m : ℤ) < (L : ℤ) * L := by
    have h1 : (el : ℤ) + 1 ≤ L := by exact_mod_cast hel
    nlinarith
  unfold ncoeff
  exact_mod_cast this

lemma sqrt_elm2ind (el : ℕ) (m : ℤ) (hm : -(el : ℤ) ≤ m) (hm' : m ≤ el) :
    Nat.sqrt (elm2ind el m) = el := by
  have h := elm2ind_cast el m hm
  have hlo : el * el ≤ elm2ind el m := by
    have : ((el : ℤ)) * el ≤ (elm2ind el m : ℤ) := by nlinarith
    exact_mod_cast this
  have hhi : elm2ind el m < (el + 1) * (el + 1) := by
    have : (elm2ind el m : ℤ) < ((el : ℤ) + 1) * ((el : ℤ) + 1) := by nlinarith
    exact_mod_cast this
  refine le_antisymm ?_ (Nat.le_sqrt.mpr hlo)
  exact Nat.lt_succ_iff.mp (Nat.sqrt_lt.mpr hhi)

/-- C10, part of the development: converting a flat vector to the triangular
table and back restores every entry at a valid flat offset. -/
lemma roundtrip_1d (x : ℕ → ℂ) (L i : ℕ) (hi : i < ncoeff L) :
    flm_2d_to_1d (flm_1d_to_2d x L) L i = x i := by
  unfold flm_2d_to_1d
  rw [if_pos hi]
  set el := Nat.sqrt i with hel
  set s := el * el with hs
  have hsqel : el ^ 2 = s := sq el
  have hsq : s ≤ i := by
    have h0 := Nat.sqrt_le' i
    rw [← hel] at h0
    omega
  have hsq'' : i < s + 2 * el + 1 := by
    have h1 : i < (el + 1) ^ 2 := by
      have h0 := Nat.lt_succ_sqrt' i
      rw [← hel] at h0
      simpa [Nat.succ_eq_add_one] using h0
    have h2 : (el + 1) ^ 2 = s + 2 * el + 1 := by rw [hs]; ring
    omega
  have helL : el < L := Nat.sqrt_lt.mpr hi
  unfold flm_1d_to_2d
  rw [if_pos ?_]
  · congr 1
    unfold elm2ind
    have hel1 : el ≤ L - 1 := by omega
    have hcast : ((el : ℤ)) ^ 2 = (s : ℤ) := by exact_mod_cast hsqel
    rw [hcast, hsqel]
    omega
  · refine ⟨helL, by omega, by omega⟩

/-- C10, part of the development: converting a triangular table (zero outside
the valid `(el, m)` triangle) to the flat vector and back restores it. -/
lemma roundtrip_2d (y : ℕ → ℕ → ℂ) (L : ℕ)
    (hy : ∀ el c, ¬(el < L ∧ L - 1 - el ≤ c ∧ c ≤ L - 1 + el) → y el c = 0)
    (el c : ℕ) : flm_1d_to_2d (flm_2d_to_1d y L) L el c = y el c := by
  unfold flm_1d_to_2d
  by_cases h : el < L ∧ L - 1 - el ≤ c ∧ c ≤ L - 1 + el
  · rw [if_pos h]
    obtain ⟨h1, h2, h3⟩ := h
    have hL1 : el ≤ L - 1 := by omega
    set m : ℤ := (c : ℤ) - ((L - 1 : ℕ) : ℤ) with hm
    have hmlo : -(el : ℤ) ≤ m := by simp only [hm]; omega
    have hmhi : m ≤ el := by simp only [hm]; omega
    unfold flm_2d_to_1d
    rw [if_pos (elm2ind_lt el m hmlo hmhi L h1)]
    rw [sqrt_elm2ind el m hmlo hmhi]
    congr 1
    have hcast := elm2ind_cast el m hmlo
    have hsqel : el ^ 2 = el * el := sq el
    have key : (elm2ind el m : ℤ) = ((el * el + el : ℕ) : ℤ) + ((c : ℤ) - ((L - 1 : ℕ) : ℤ)) := by
      rw [hcast, hm]
      have h2 : ((el : ℤ)) ^ 2 = ((el * el : ℕ) : ℤ) := by push_cast; ring
      rw [h2]
      push_cast
      ring
    rw [hsqel]
    omega
  · rw [if_neg h, (hy el c h).symm]

/-- C10: the flat and triangular coefficient layouts are mutually inverse
conversions: `flm_2d_to_1d (flm_1d_to_2d x L) L` restores `x` at every valid
flat offset `i < ncoeff L`, and `flm_1d_to_2d (flm_2d_to_1d y L) L` restores
every `L × (2L-1)` table `y` whose entries outside the valid `(el, m)`
triangle are zero. -/
theorem flm_layouts_mutually_inverse :
    (∀ (x : ℕ → ℂ) (L i : ℕ), i < ncoeff L →
        flm_2d_to_1d (flm_1d_to_2d x L) L i = x i) ∧
    (∀ (y : ℕ → ℕ → ℂ) (L : ℕ),
        (∀ el c, ¬(el < L ∧ L - 1 - el ≤ c ∧ c ≤ L - 1 + el) → y el c = 0) →
        ∀ el c, flm_1d_to_2d (flm_2d_to_1d y L) L el c = y el c) :=
  ⟨roundtrip_1d, roundtrip_2d⟩

/-- Witness for C10 at the concrete input `L = 2`, `i = 3`. -/
theorem flm_layouts_mutually_inverse_witness :
    flm_2d_to_1d (flm_1d_to_2d (fun i => (i : ℂ)) 2) 2 3 = ((3 : ℕ) : ℂ) ∧
    flm_1d_to_2d (flm_2d_to_1d (fun _ _ => 0) 2) 2 0 5 = 0 :=
  ⟨flm_layouts_mutually_inverse.1 (fun i => (i : ℂ)) 2 3 (by decide),
   flm_layouts_mutually_inverse.2 (fun _ _ => 0) 2 (fun _ _ _ => rfl) 0 5⟩

/-! ## Wigner-d recursion engine (`s2fft/wigner/turok.py`)

Matrices are total functions `ℕ → ℕ → ℝ` that are zero outside the populated
region (numpy arrays are allocated with `np.zeros`).  Python's 1-based loop
indices `i, j, m` (offset `lp1 = 1`) are translated to 0-based `r, c`
throughout; the correspondence is noted at each definition. -/

/-- `big_const = 1e10`, the renormalisation threshold. -/
noncomputable def big_const : ℝ := 1e10

/-- `t = np.tan(-beta / 2.0)`. -/
noncomputable def tval (β : ℝ) : ℝ := Real.tan (-β / 2)

/-- `c2 = np.cos(beta / 2.0)`. -/
noncomputable def c2val (β : ℝ) : ℝ := Real.cos (β / 2)

/-- `log_first_row` of `turok_quarter`/`turok_quarter_spin` (identical code in
both): `log_first_row[0] = 2l·log|c2|`, and for python `i ∈ [2, 2l+1]`
(our `k+1 = i-1`), with `m = l+1-i = l-1-k`,
`ratio = sqrt((m+l+1)/(l-m)) = sqrt((2l-k)/(k+1))`,
`log_first_row[i-1] = log_first_row[i-2] + log ratio + log|t|`. -/
noncomputable def log_first_row (β : ℝ) (l : ℕ) : ℕ → ℝ
  | 0 => 2 * l * Real.log |c2val β|
  | k + 1 =>
    log_first_row β l k + Real.log (Real.sqrt (((2 * l - k : ℕ) : ℝ) / (k + 1)))
      + Real.log |tval β|

/-- `sign` vector: `sign[0] = 1`, `sign[i-1] = sign[i-2] * t/|t|`. -/
noncomputable def sign_row (β : ℝ) : ℕ → ℝ
  | 0 => 1
  | k + 1 => sign_row β k * (tval β / |tval β|)

/-- `cpi[m-1] = 2/sqrt(l(l+1) - xm(xm+1))` with `xm = l - m`; 0-based index
`j = m - 1`, so `xm = l - 1 - j` (computed over ℝ: it is `-1` at `j = l`). -/
noncomputable def cpi (l : ℕ) : ℕ → ℝ := fun j =>
  2 / Real.sqrt (l * (l + 1) - ((l : ℝ) - 1 - j) * (((l : ℝ) - 1 - j) + 1))

/-- `cp[m-1] = 1/cpi[m-1]` (only in `turok_quarter`). -/
noncomputable def cp (l : ℕ) : ℕ → ℝ := fun j => 1 / cpi l j

/-- `turok_quarter`: `cp2[m-1] = cpi[m-1] * cp[m-2]`. -/
noncomputable def cp2full (l : ℕ) : ℕ → ℝ := fun j => cpi l j * cp l (j - 1)

/-- `turok_quarter_spin`: `cp2[m-1] = cpi[m-1] / cpi[m-2]`. -/
noncomputable def cp2spin (l : ℕ) : ℕ → ℝ := fun j => cpi l j / cpi l (j - 1)

/-- `lamb = ((l+1)*omc - i + m*c) / s` for 1-based row `i` and recurrence
index `m` (with `omc = 1 - cos β`, `c = cos β`, `s = sin β`). -/
noncomputable def lamb (β : ℝ) (l i m : ℕ) : ℝ :=
  ((l + 1) * (1 - Real.cos β) - i + m * Real.cos β) / Real.sin β

/-- The three-term Turok recurrence along one row (identical inner loops of
`turok_quarter` and `turok_quarter_spin`, which differ only in `cp2`), for
1-based row `i`.  State after `n` steps: the row prefix (0-based columns;
column `0` holds `1`, column `1` holds `lamb * 1 * cpi[0]`) and the
accumulated renormalisation exponent `lrenorm[i-1]`.  Step `n+1` computes
python's `m = n+2`:
`dl[i, m] = lamb*cpi[m-1]*dl[i, m-1] - cp2[m-1]*dl[i, m-2]` (0-based columns
`m, m-1, m-2`), and if the new entry exceeds `big_const` rescales columns
`0..m` by `1/big_const` and subtracts `log big_const` from the exponent. -/
noncomputable def rowAux (β : ℝ) (l : ℕ) (cp2F : ℕ → ℝ) (i : ℕ) : ℕ → (ℕ → ℝ) × ℝ
  | 0 => (fun j => if j = 0 then 1 else if j = 1 then lamb β l i 1 * 1 * cpi l 0 else 0, 0)
  | n + 1 =>
    let st := rowAux β l cp2F i n
    let m := n + 2
    let v := lamb β l i m * cpi l (m - 1) * st.1 (m - 1) - cp2F (m - 1) * st.1 (m - 2)
    let e := Function.update st.1 m v
    if big_const < v then
      (fun j => if j ≤ m then e j * (1 / big_const) else e j, st.2 - Real.log big_const)
    else (e, st.2)

/-- One completed row of the lower-left eighth (python rows `i ∈ [2, l+1]`,
0-based `r = i - 1 ∈ [1, l]`; also `turok_quarter_spin`'s first loop, whose
range extends down to `i = 1`): the recurrence runs `i-2` steps (columns
`0..i-1`), and the final renormalisation `sign[i-1]*exp(log_first_row[i-1]
- lrenorm[i-1])` is applied to columns `0..i-1` (i.e. `c ≤ r`).  Columns the
renormalisation loop does not reach keep their raw value. -/
noncomputable def quarterRowLower (β : ℝ) (l : ℕ) (cp2F : ℕ → ℝ) (r : ℕ) : ℕ → ℝ := fun c =>
  let st := rowAux β l cp2F (r + 1) (r - 1)
  if c ≤ r then st.1 c * (sign_row β r * Real.exp (log_first_row β l r - st.2)) else st.1 c

/-- One completed row of the upper-left eighth (python rows `i ∈ [l+2, 2l]`,
0-based `r = i - 1 ∈ [l+1, 2l-1]`; also `turok_quarter_spin`'s second loop,
whose range extends up to `i = 2l+1`): the recurrence runs `2l-i` steps
(columns `0..2l-i+1`, guarded by `if i < 2l`), and the renormalisation is
applied to columns `0..2l+1-i` (i.e. `c ≤ 2l-r`). -/
noncomputable def quarterRowUpper (β : ℝ) (l : ℕ) (cp2F : ℕ → ℝ) (r : ℕ) : ℕ → ℝ := fun c =>
  let st := rowAux β l cp2F (r + 1) (2 * l - r - 1)
  if c ≤ 2 * l - r then
    st.1 c * (sign_row β r * Real.exp (log_first_row β l r - st.2))
  else st.1 c

/-! `turok_fill` reflects the quarter plane to the full matrix in four
sequential loop nests.  Each nest writes a set of cells disjoint from the
cells it reads (checked region by region below), so each nest is embedded as
one simultaneous region update; the nests are composed sequentially. -/

/-- `turok_fill`, first nest (reflect across the anti-diagonal):
`for i in 1..l, j in l+1..2l+1-i: dl[2l+1-i, 2l+1-j] = dl[j-1, i-1]`
(0-based targets `R = 2l+1-i ∈ [l+1, 2l]`, `C = 2l+1-j ∈ [2l+1-R, l]`,
source `(2l-C, 2l-R)`; sources have column `≤ l-1` and row `≥ l`, and satisfy
`C' ≤ 2l-1-R'` there, so no source is a target). -/
def fillPass1 (l : ℕ) (dl : ℕ → ℕ → ℝ) : ℕ → ℕ → ℝ := fun R C =>
  if l + 1 ≤ R ∧ R ≤ 2 * l ∧ 2 * l + 1 - R ≤ C ∧ C ≤ l then dl (2 * l - C) (2 * l - R)
  else dl R C

/-- `turok_fill`, second nest (reflect across the diagonal):
`for i in 1..l+1: sgn = -1; for j in i+1..l+1: dl[i-1, j-1] = dl[j-1, i-1]*sgn;
sgn = -sgn` (0-based targets `R < C ≤ l`, source `(C, R)` with row > column,
never a target; `sgn = (-1)^(C-R)`). -/
def fillPass2 (l : ℕ) (dl : ℕ → ℕ → ℝ) : ℕ → ℕ → ℝ := fun R C =>
  if R < C ∧ C ≤ l then dl C R * (-1 : ℝ) ^ (C - R) else dl R C

/-- `turok_fill`, third nest (fill right matrix, two sub-loops per `i`):
`for i in l+2..2l+1: sgn = (-1)^(i+1); for j in 1..2l+2-i:
dl[j-1, i-1] = dl[i-1, j-1]*sgn; sgn = -sgn` then
`for j in i..2l+1: dl[j-1, i-1] = dl[2l+2-i-1, 2l+2-j-1]`
(0-based: column `C = i-1 ∈ [l+1, 2l]`; first sub-loop targets `R + C ≤ 2l`
with source `(C, R)` and `sgn = (-1)^(R+C)`; second sub-loop targets
`C ≤ R ≤ 2l` with source `(2l-C, 2l-R)`.  All sources have column `≤ l-1`,
all targets column `≥ l+1`). -/
def fillPass3 (l : ℕ) (dl : ℕ → ℕ → ℝ) : ℕ → ℕ → ℝ := fun R C =>
  if l + 1 ≤ C ∧ C ≤ 2 * l then
    if R + C ≤ 2 * l then dl C R * (-1 : ℝ) ^ (R + C)
    else if C ≤ R ∧ R ≤ 2 * l then dl (2 * l - C) (2 * l - R)
    else dl R C
  else dl R C

/-- `turok_fill`, fourth nest:
`for i in l+2..2l+1, j in 2l+3-i..i-1: dl[j-1, i-1] = dl[2l+2-i-1, 2l+2-j-1]`
(0-based targets `C = i-1 ∈ [l+1, 2l]`, `R = j-1 ∈ [2l+1-C, C-1]`, source
`(2l-C, 2l-R)`; sources satisfy `R' + C' ≤ 2l` and are never targets). -/
def fillPass4 (l : ℕ) (dl : ℕ → ℕ → ℝ) : ℕ → ℕ → ℝ := fun R C =>
  if l + 1 ≤ C ∧ C ≤ 2 * l ∧ 2 * l + 1 - C ≤ R ∧ R ≤ C - 1 then dl (2 * l - C) (2 * l - R)
  else dl R C

/-- `turok_fill(dl, l)`: the four reflection nests applied in order. -/
def turok_fill (dl : ℕ → ℕ → ℝ) (l : ℕ) : ℕ → ℕ → ℝ :=
  fillPass4 l (fillPass3 l (fillPass2 l (fillPass1 l dl)))

lemma neg_one_pow_parity (x y : ℕ) (h : x % 2 = y % 2) : ((-1 : ℝ)) ^ x = (-1) ^ y := by
  rcases Nat.even_or_odd x with hx | hx
  · have hy : Even y := by
      rw [Nat.even_iff]
      rw [Nat.even_iff] at hx
      omega
    rw [hx.neg_one_pow, hy.neg_one_pow]
  · have hy : Odd y := by
      rw [Nat.odd_iff]
      rw [Nat.odd_iff] at hx
      omega
    rw [hx.neg_one_pow, hy.neg_one_pow]

/-- Closed form of `turok_fill` on the untouched quarter
(`C ≤ R`, `R + C ≤ 2l`). -/
lemma fill_quarter (M : ℕ → ℕ → ℝ) (l R C : ℕ) (h1 : C ≤ R) (h2 : R + C ≤ 2 * l) :
    turok_fill M l R C = M R C := by
  unfold turok_fill fillPass4 fillPass3 fillPass2 fillPass1
  split_ifs <;> first | rfl | (exfalso; omega)

/-- Closed form of `turok_fill` above the diagonal in the left half
(`R < C ≤ l`): the diagonal reflection with alternating sign. -/
lemma fill_upper_left (M : ℕ → ℕ → ℝ) (l R C : ℕ) (h1 : R < C) (h2 : C ≤ l) :
    turok_fill M l R C = M C R * (-1 : ℝ) ^ (C - R) := by
  unfold turok_fill fillPass4 fillPass3 fillPass2 fillPass1
  split_ifs <;> first | rfl | (exfalso; omega)

/-- Closed form of `turok_fill` below the anti-diagonal in the left half
(`C ≤ l`, `l + 1 ≤ R ≤ 2l`, `2l + 1 ≤ R + C`): the anti-diagonal
reflection. -/
lemma fill_lower_left (M : ℕ → ℕ → ℝ) (l R C : ℕ) (h1 : C ≤ l) (h2 : l + 1 ≤ R)
    (h3 : R ≤ 2 * l) (h4 : 2 * l + 1 ≤ R + C) :
    turok_fill M l R C = M (2 * l - C) (2 * l - R) := by
  unfold turok_fill fillPass4 fillPass3 fillPass2 fillPass1
  split_ifs <;> first | rfl | (exfalso; omega)

/-- Closed form of `turok_fill` in the right half above the anti-diagonal
(`l + 1 ≤ C ≤ 2l`, `R + C ≤ 2l`). -/
lemma fill_right_top (M : ℕ → ℕ → ℝ) (l R C : ℕ) (h1 : l + 1 ≤ C) (h2 : C ≤ 2 * l)
    (h3 : R + C ≤ 2 * l) :
    turok_fill M l R C = M C R * (-1 : ℝ) ^ (R + C) := by
  unfold turok_fill fillPass4 fillPass3 fillPass2 fillPass1
  split_ifs <;> first | rfl | (exfalso; omega)

/-- Closed form of `turok_fill` in the right half on or below the diagonal
(`l + 1 ≤ C ≤ R ≤ 2l`). -/
lemma fill_right_bottom (M : ℕ → ℕ → ℝ) (l R C : ℕ) (h1 : l + 1 ≤ C) (h2 : C ≤ R)
    (h3 : R ≤ 2 * l) :
    turok_fill M l R C = M (2 * l - C) (2 * l - R) := by
  unfold turok_fill fillPass4 fillPass3 fillPass2 fillPass1
  split_ifs <;> first | rfl | (exfalso; omega)

/-- Closed form of `turok_fill` in the right half between anti-diagonal and
diagonal (`l + 1 ≤ C ≤ 2l`, `2l + 1 - C ≤ R < C`). -/
lemma fill_right_mid (M : ℕ → ℕ → ℝ) (l R C : ℕ) (h1 : l + 1 ≤ C) (h2 : C ≤ 2 * l)
    (h3 : 2 * l + 1 - C ≤ R) (h4 : R < C) :
    turok_fill M l R C = M (2 * l - R) (2 * l - C) * (-1 : ℝ) ^ (R + C) := by
  unfold turok_fill fillPass4 fillPass3 fillPass2 fillPass1
  split_ifs <;>
    first
      | rfl
      | (exfalso; omega)
      | (congr 1; exact neg_one_pow_parity _ _ (by omega))

/-- `turok_fill` does not touch cells outside the `(2l+1)²` block. -/
lemma fill_outside (M : ℕ → ℕ → ℝ) (l R C : ℕ) (h : 2 * l < R ∨ 2 * l < C) :
    turok_fill M l R C = M R C := by
  unfold turok_fill fillPass4 fillPass3 fillPass2 fillPass1
  split_ifs <;> first | rfl | (exfalso; omega)

/-- The generic (non-singular) branch of `turok_quarter`: rows `0` and `2l`
hold `1 * sign[i-1]*exp(log_first_row[i-1])` at column 0 (their `lrenorm`
stays 0), rows `1..l` are `quarterRowLower` on columns `0..r`, rows
`l+1..2l-1` are `quarterRowUpper` on columns `0..2l-r`; everything else is
zero. -/
noncomputable def turok_quarter_main (β : ℝ) (l : ℕ) : ℕ → ℕ → ℝ := fun r c =>
  if r = 0 then (if c = 0 then sign_row β 0 * Real.exp (log_first_row β l 0) else 0)
  else if r ≤ l then (if c ≤ r then quarterRowLower β l (cp2full l) r c else 0)
  else if r ≤ 2 * l - 1 then
    (if c ≤ 2 * l - r then quarterRowUpper β l (cp2full l) r c else 0)
  else if r = 2 * l then
    (if c = 0 then sign_row β (2 * l) * Real.exp (log_first_row β l (2 * l)) else 0)
  else 0

/-- `turok_quarter(beta, l)`: singular branches (`|beta| <= 0` gives the
identity, `|beta| >= pi` the anti-diagonal `dl[l-m, l+m] = (-1)^(l+m)`, whose
exponent `l+m` is the 0-based column; `l == 0` the scalar 1), otherwise the
renormalised Turok recurrence `turok_quarter_main` on the left quarter. -/
noncomputable def turok_quarter (β : ℝ) (l : ℕ) : ℕ → ℕ → ℝ :=
  if |β| ≤ 0 then fun r c => if r = c ∧ r ≤ 2 * l then 1 else 0
  else if Real.pi ≤ |β| then
    fun r c => if r + c = 2 * l ∧ c ≤ 2 * l then (-1 : ℝ) ^ c else 0
  else if l = 0 then fun r c => if r = 0 ∧ c = 0 then 1 else 0
  else turok_quarter_main β l

/-- The matrix built by `turok_quarter_spin` before its final reflection
(generic branch), with `a = |spin|`: first loop `i ∈ [l-a+1, l+1]` fills rows
`l-a..l` with the lower-eighth recurrence, second loop `i ∈ [l+2, l+a+1]`
fills rows `l+1..l+a` with the upper-eighth recurrence (both with
`cp2[m-1] = cpi[m-1]/cpi[m-2]`), and `dl[0,0] = dl[2l,0] = 1` are preset.
Unlike `turok_quarter`, rows outside `[l-a, l+a]` are never renormalised. -/
noncomputable def turok_quarter_spin_mat (β : ℝ) (l a : ℕ) : ℕ → ℕ → ℝ := fun r c =>
  if l - a ≤ r ∧ r ≤ l then quarterRowLower β l (cp2spin l) r c
  else if l + 1 ≤ r ∧ r ≤ l + a then quarterRowUpper β l (cp2spin l) r c
  else if (r = 0 ∨ r = 2 * l) ∧ c = 0 then 1
  else 0

/-- `turok_quarter_spin(beta, l, spin)` with `accelerate = False`, as a value
on the in-bounds domain `l ≥ |spin|` (where every array index the source
touches lies in `[0, 2l]`): singular branches as in `turok_quarter` but
sliced (`dl[l-spin] = 1` at `beta = 0`; `dl[l+spin] = (-1)^(l+spin)` at
`beta = pi`; scalar 1 at `l = 0`), otherwise `turok_fill` applied to the
partially-filled quarter and row `l - spin` returned.  For `l < |spin|` the
source's indices leave `[0, 2l]` (numpy wrap-around or `IndexError`); that
run-time behaviour is modelled separately by `turok_quarter_spin_run`
below. -/
noncomputable def turok_quarter_spin (β : ℝ) (l : ℕ) (spin : ℤ) : ℕ → ℝ :=
  if |β| ≤ 0 then fun j => if (j : ℤ) = l - spin then 1 else 0
  else if Real.pi ≤ |β| then
    fun j => if (j : ℤ) = l + spin then (-1 : ℝ) ^ ((l : ℤ) + spin) else 0
  else if l = 0 then fun j => if j = 0 then 1 else 0
  else fun j => turok_fill (turok_quarter_spin_mat β l spin.natAbs) l ((l : ℤ) - spin).toNat j

/-- `compute_full(beta, el, L)` (validation passed): a `(2L-1) × (2L-1)` zero
matrix whose central block `[L-1-el, L+el-1]²` is
`turok_fill(turok_quarter(beta, el), el)`. -/
noncomputable def compute_full (β : ℝ) (el L : ℕ) : ℕ → ℕ → ℝ := fun R C =>
  if L - 1 - el ≤ R ∧ R ≤ L - 1 + el ∧ L - 1 - el ≤ C ∧ C ≤ L - 1 + el then
    turok_fill (turok_quarter β el) el (R - (L - 1 - el)) (C - (L - 1 - el))
  else 0

/-- `compute_spin_slice(beta, el, L, spin)` (validation passed,
`accelerate = False`, in-bounds domain `el ≥ |spin|`): a length `2L-1` zero
vector whose central slice `[L-1-el, L+el-1]` is
`turok_quarter_spin(beta, el, spin)`.  The run-time behaviour outside that
domain (numpy wrap-around and `IndexError`) is `compute_spin_slice_run`. -/
noncomputable def compute_spin_slice (β : ℝ) (el L : ℕ) (spin : ℤ) : ℕ → ℝ := fun j =>
  if L - 1 - el ≤ j ∧ j ≤ L - 1 + el then turok_quarter_spin β el spin (j - (L - 1 - el))
  else 0

/-- `turok_fill` maps the `(2l+1)`-identity (the `beta = 0` quarter) to
itself. -/
lemma fill_id (l R C : ℕ) :
    turok_fill (fun r c => if r = c ∧ r ≤ 2 * l then (1 : ℝ) else 0) l R C
      = if R = C ∧ R ≤ 2 * l then 1 else 0 := by
  by_cases h0 : 2 * l < R ∨ 2 * l < C
  · rw [fill_outside _ _ _ _ h0]
  · push_neg at h0
    obtain ⟨hR, hC⟩ := h0
    by_cases h1 : C ≤ R ∧ R + C ≤ 2 * l
    · rw [fill_quarter _ _ _ _ h1.1 h1.2]
    · by_cases h2 : R < C ∧ C ≤ l
      · rw [fill_upper_left _ _ _ _ h2.1 h2.2, if_neg (by omega), if_neg (by omega)]
        ring
      · by_cases h3 : C ≤ l
        · rw [fill_lower_left _ _ _ _ h3 (by omega) hR (by omega)]
          rw [if_neg (by omega), if_neg (by omega)]
        · by_cases h4 : R + C ≤ 2 * l
          · rw [fill_right_top _ _ _ _ (by omega) hC h4, if_neg (by omega),
              if_neg (by omega)]
            ring
          · by_cases h5 : C ≤ R
            · rw [fill_right_bottom _ _ _ _ (by omega) h5 hR]
              by_cases h6 : R = C
              · rw [if_pos (by omega), if_pos (by omega)]
              · rw [if_neg (by omega), if_neg (by omega)]
            · rw [fill_right_mid _ _ _ _ (by omega) hC (by omega) (by omega),
                if_neg (by omega), if_neg (by omega)]
              ring

/-- `turok_fill` maps the `beta = pi` anti-diagonal quarter to the full
anti-diagonal matrix. -/
lemma fill_antidiag (l R C : ℕ) :
    turok_fill (fun r c => if r + c = 2 * l ∧ c ≤ 2 * l then ((-1 : ℝ)) ^ c else 0) l R C
      = if R + C = 2 * l ∧ C ≤ 2 * l then (-1 : ℝ) ^ C else 0 := by
  by_cases h0 : 2 * l < R ∨ 2 * l < C
  · rw [fill_outside _ _ _ _ h0]
  · push_neg at h0
    obtain ⟨hR, hC⟩ := h0
    by_cases h1 : C ≤ R ∧ R + C ≤ 2 * l
    · rw [fill_quarter _ _ _ _ h1.1 h1.2]
    · by_cases h2 : R < C ∧ C ≤ l
      · rw [fill_upper_left _ _ _ _ h2.1 h2.2]
        by_cases ha : R + C = 2 * l
        · rw [if_pos (by omega), if_pos (by omega), ← pow_add]
          exact neg_one_pow_parity _ _ (by omega)
        · rw [if_neg (by omega), if_neg (by omega)]
          ring
      · by_cases h3 : C ≤ l
        · rw [fill_lower_left _ _ _ _ h3 (by omega) hR (by omega)]
          rw [if_neg (by omega), if_neg (by omega)]
        · by_cases h4 : R + C ≤ 2 * l
          · rw [fill_right_top _ _ _ _ (by omega) hC h4]
            by_cases ha : R + C = 2 * l
            · rw [if_pos (by omega), if_pos (by omega), ← pow_add]
              exact neg_one_pow_parity _ _ (by omega)
            · rw [if_neg (by omega), if_neg (by omega)]
              ring
          · by_cases h5 : C ≤ R
            · rw [fill_right_bottom _ _ _ _ (by omega) h5 hR]
              rw [if_neg (by omega), if_neg (by omega)]
            · rw [fill_right_mid _ _ _ _ (by omega) hC (by omega) (by omega),
                if_neg (by omega), if_neg (by omega)]
              ring

lemma turok_quarter_zero (l : ℕ) :
    turok_quarter 0 l = fun r c => if r = c ∧ r ≤ 2 * l then (1 : ℝ) else 0 := by
  unfold turok_quarter
  rw [if_pos (by simp)]

lemma turok_quarter_pi (l : ℕ) :
    turok_quarter Real.pi l
      = fun r c => if r + c = 2 * l ∧ c ≤ 2 * l then ((-1 : ℝ)) ^ c else 0 := by
  unfold turok_quarter
  rw [if_neg (by rw [abs_of_pos Real.pi_pos]; exact not_le.mpr Real.pi_pos),
    if_pos (by rw [abs_of_pos Real.pi_pos])]

/-- C6: for every `0 ≤ el < L`, `compute_full` at `beta = 0` returns the
identity on the populated block — the central `(2el+1)×(2el+1)` sub-block is
the identity matrix and all entries outside that block are zero. -/
theorem compute_full_beta_zero (el L : ℕ) (h : el < L) :
    compute_full 0 el L = fun R C =>
      if R = C ∧ L - 1 - el ≤ R ∧ R ≤ L - 1 + el then (1 : ℝ) else 0 := by
  funext R C
  unfold compute_full
  rw [turok_quarter_zero]
  by_cases hin : L - 1 - el ≤ R ∧ R ≤ L - 1 + el ∧ L - 1 - el ≤ C ∧ C ≤ L - 1 + el
  · rw [if_pos hin, fill_id]
    obtain ⟨a, b, c', d⟩ := hin
    by_cases he : R = C
    · rw [if_pos (by omega), if_pos (by omega)]
    · rw [if_neg (by omega), if_neg (by omega)]
  · rw [if_neg hin, if_neg (by omega)]

/-- Witness for C6 at `el = 1`, `L = 2`. -/
theorem compute_full_beta_zero_witness :
    compute_full 0 1 2 = fun R C =>
      if R = C ∧ 2 - 1 - 1 ≤ R ∧ R ≤ 2 - 1 + 1 then (1 : ℝ) else 0 :=
  compute_full_beta_zero 1 2 (by decide)

/-- C7: for every `0 ≤ el < L`, `compute_full` at `beta = pi` returns, on the
populated block, the anti-diagonal matrix with entry `(-1)^(el+m)` at block
position `(el-m, el+m)` — globally, `(-1)^(el+C-(L-1))` wherever
`R + C = 2(L-1)` within the block — and zeros elsewhere. -/
theorem compute_full_beta_pi (el L : ℕ) (h : el < L) :
    compute_full Real.pi el L = fun R C =>
      if R + C = 2 * (L - 1) ∧ L - 1 - el ≤ R ∧ R ≤ L - 1 + el then
        (-1 : ℝ) ^ (el + C - (L - 1)) else 0 := by
  funext R C
  unfold compute_full
  rw [turok_quarter_pi]
  by_cases hin : L - 1 - el ≤ R ∧ R ≤ L - 1 + el ∧ L - 1 - el ≤ C ∧ C ≤ L - 1 + el
  · rw [if_pos hin, fill_antidiag]
    obtain ⟨a, b, c', d⟩ := hin
    by_cases he : R + C = 2 * (L - 1)
    · rw [if_pos (by omega), if_pos (by omega)]
      exact neg_one_pow_parity _ _ (by omega)
    · rw [if_neg (by omega), if_neg (by omega)]
  · rw [if_neg hin, if_neg (by omega)]

/-- Witness for C7 at `el = 1`, `L = 2`. -/
theorem compute_full_beta_pi_witness :
    compute_full Real.pi 1 2 = fun R C =>
      if R + C = 2 * (2 - 1) ∧ 2 - 1 - 1 ≤ R ∧ R ≤ 2 - 1 + 1 then
        (-1 : ℝ) ^ (1 + C - (2 - 1)) else 0 :=
  compute_full_beta_pi 1 2 (by decide)

/-- numpy basic indexing into a length-`n` 1-D array: indices in `[0, n)` are
taken as-is, negative indices in `[-n, 0)` wrap by `+n`, and anything else
raises an `IndexError` (modelled `none`). -/
def npIdx (n : ℕ) (i : ℤ) : Option ℕ :=
  if 0 ≤ i ∧ i < n then some i.toNat
  else if -(n : ℤ) ≤ i ∧ i < 0 then some (i + n).toNat
  else none

lemma npIdx_inb (n : ℕ) (i : ℤ) (h1 : 0 ≤ i) (h2 : i < n) : npIdx n i = some i.toNat := by
  unfold npIdx
  rw [if_pos ⟨h1, h2⟩]

lemma npIdx_wrap (n : ℕ) (i : ℤ) (h1 : -(n : ℤ) ≤ i) (h2 : i < 0) :
    npIdx n i = some (i + n).toNat := by
  unfold npIdx
  rw [if_neg (by omega), if_pos ⟨h1, h2⟩]

lemma npIdx_oob (n : ℕ) (i : ℤ) (h : (n : ℤ) ≤ i ∨ i < -(n : ℤ)) : npIdx n i = none := by
  unfold npIdx
  rw [if_neg (by omega), if_neg (by omega)]

/-- `turok_quarter_spin(beta, l, spin)` as actually run, for any `l`, `spin`
that pass validation: `none` models an uncaught `IndexError`.
`beta = 0` writes `dl[l-spin]`, `beta >= pi` writes `dl[l+spin]` — both with
numpy indexing semantics (`npIdx`), so an index in `[-(2l+1), 0)` silently
wraps and one outside `[-(2l+1), 2l]` raises.  The `l == 0` branch returns
the scalar 1 and cannot fault.  The generic branch is the in-bounds
`turok_quarter_spin` for `|spin| ≤ l`; for `|spin| > l` (`l ≥ 1`) the source
always faults before returning: the second fill loop
`for i in range(l+2, l+|spin|+2)` reaches row `i-1 = 2l+1 > 2l`
(and for `|spin| > 3l+1` the first loop's row `l-|spin|` already falls below
`-(2l+1)`), an out-of-bounds write either way. -/
noncomputable def turok_quarter_spin_run (β : ℝ) (l : ℕ) (spin : ℤ) : Option (ℕ → ℝ) :=
  if |β| ≤ 0 then
    (npIdx (2 * l + 1) ((l : ℤ) - spin)).map fun k => fun j => if j = k then (1 : ℝ) else 0
  else if Real.pi ≤ |β| then
    (npIdx (2 * l + 1) ((l : ℤ) + spin)).map fun k =>
      fun j => if j = k then (-1 : ℝ) ^ ((l : ℤ) + spin) else 0
  else if l = 0 then some fun j => if j = 0 then (1 : ℝ) else 0
  else if spin.natAbs ≤ l then
    some fun j => turok_fill (turok_quarter_spin_mat β l spin.natAbs) l ((l : ℤ) - spin).toNat j
  else none

/-- On the in-bounds domain `|spin| ≤ l` the run-time function completes and
returns exactly the `turok_quarter_spin` value. -/
lemma turok_quarter_spin_run_eq (β : ℝ) (l : ℕ) (spin : ℤ) (hs : spin.natAbs ≤ l) :
    turok_quarter_spin_run β l spin = some (turok_quarter_spin β l spin) := by
  unfold turok_quarter_spin_run turok_quarter_spin
  by_cases h0 : |β| ≤ 0
  · rw [if_pos h0, if_pos h0, npIdx_inb (2 * l + 1) ((l : ℤ) - spin) (by omega) (by omega),
      Option.map_some']
    congr 1
    funext j
    show (if j = ((l : ℤ) - spin).toNat then (1 : ℝ) else 0)
      = if (j : ℤ) = (l : ℤ) - spin then 1 else 0
    refine if_congr ?_ rfl rfl
    omega
  · rw [if_neg h0, if_neg h0]
    by_cases hpi : Real.pi ≤ |β|
    · rw [if_pos hpi, if_pos hpi,
        npIdx_inb (2 * l + 1) ((l : ℤ) + spin) (by omega) (by omega), Option.map_some']
      congr 1
      funext j
      show (if j = ((l : ℤ) + spin).toNat then (-1 : ℝ) ^ ((l : ℤ) + spin) else 0)
        = if (j : ℤ) = (l : ℤ) + spin then (-1 : ℝ) ^ ((l : ℤ) + spin) else 0
      refine if_congr ?_ rfl rfl
      omega
    · rw [if_neg hpi, if_neg hpi]
      by_cases hl : l = 0
      · rw [if_pos hl, if_pos hl]
      · rw [if_neg hl, if_neg hl, if_pos hs]

/-- `compute_spin_slice` as actually run: the slice assignment applied to the
run-time result (`none` propagates an uncaught `IndexError`). -/
noncomputable def compute_spin_slice_run (β : ℝ) (el L : ℕ) (spin : ℤ) : Option (ℕ → ℝ) :=
  (turok_quarter_spin_run β el spin).map fun v =>
    fun j => if L - 1 - el ≤ j ∧ j ≤ L - 1 + el then v (j - (L - 1 - el)) else 0

/-- `compute_spin_slice` with its argument validation, in source order:
`el < spin` raises (`SpinExceedsDegree` class); `accelerate == True` raises
(`UnsupportedSampling` class, the unimplemented reflection-acceleration
path); `el >= L` raises (`InvalidBandlimit` class).  `el` is a python `int`,
hence `ℤ`.  A call that escapes validation runs the recursion: `.ok (some v)`
models a normal return of `v`, `.ok none` a crash with an uncaught
`IndexError` (which the source does not catch). -/
noncomputable def compute_spin_slice_checked (β : ℝ) (el : ℤ) (L : ℕ) (spin : ℤ)
    (accelerate : Bool) : Except S2Error (Option (ℕ → ℝ)) :=
  if el < spin then .error .spinExceedsDegree
  else if accelerate then .error .unsupportedSampling
  else if (L : ℤ) ≤ el then .error .invalidBandlimit
  else .ok (compute_spin_slice_run β el.toNat L spin)

/-- A call that passes the three validations returns the run-time result. -/
lemma compute_spin_slice_checked_ok (β : ℝ) (el : ℤ) (L : ℕ) (spin : ℤ)
    (h1 : ¬ el < spin) (h2 : ¬ (L : ℤ) ≤ el) :
    compute_spin_slice_checked β el L spin false
      = Except.ok (compute_spin_slice_run β el.toNat L spin) := by
  unfold compute_spin_slice_checked
  rw [if_neg h1, if_neg (by decide), if_neg h2]

/-! ## Transform engine (`s2fft/transform.py`)

The collaborator modules `s2fft.sampling` (grid geometry) and
`s2fft.wigner.risbo` (the recursion engine the transforms call) are not under
the sources; they are modelled from the spec below. -/

/-- Modelled from the spec: `samples.ntheta(L, sampling)` — the ring count of
the Angular Sampling Provider (§6; the spec leaves the exact counts to the
collaborator; the standard values are `L`, `L+1`, `2L`). -/
def ntheta (L : ℕ) : Scheme → ℕ
  | .mw => L
  | .mwss => L + 1
  | .dh => 2 * L

/-- Modelled from the spec: `samples.thetas(L, sampling)` — the polar ring
angles of the Angular Sampling Provider (§6; values are opaque to the core:
no claim below depends on them). -/
noncomputable def thetas (L : ℕ) (scheme : Scheme) (t : ℕ) : ℝ :=
  match scheme with
  | .mw => (2 * t + 1) * Real.pi / (2 * L - 1)
  | .mwss => 2 * t * Real.pi / (2 * L)
  | .dh => (2 * t + 1) * Real.pi / (4 * L)

/-- Modelled from the spec: `samples.nphi_equiang(L, sampling)` — the
azimuthal sample count.  §4.2 specifies that the frequency-domain synthesis
stage is a length-`(2L-1)` inverse DFT that reproduces the other variants, so
the count is `2L-1`. -/
def nphi_equiang (L : ℕ) (_ : Scheme) : ℕ := 2 * L - 1

/-- Modelled from the spec: `samples.phis_equiang(L, sampling)` — equiangular
azimuths `phi_p = 2·pi·p/(2L-1)` (§4.2: the orders `m` must sit on the
standard unnormalised-DFT frequencies of a length-`(2L-1)` grid). -/
noncomputable def phis_equiang (L : ℕ) (_ : Scheme) (p : ℕ) : ℝ :=
  2 * Real.pi * p / ((2 * L - 1 : ℕ) : ℝ)

/-- Modelled from the spec: `samples.weight_dh(theta, L)` — the
Driscoll-Healy per-ring quadrature weight (§6; the spec leaves the formula to
the collaborator, standard form `(2/L)·sin θ·Σ_{k<L} sin((2k+1)θ)/(2k+1)`;
no claim below depends on its value). -/
noncomputable def weight_dh (θ : ℝ) (L : ℕ) : ℝ :=
  2 / L * Real.sin θ * ∑ k ∈ Finset.range L, Real.sin ((2 * k + 1) * θ) / (2 * k + 1)

/-- Modelled from the spec: `s2fft.wigner.risbo.compute_full(dl, beta, L, el)`
— the recursion engine consumed by the transforms (§2, §3: it produces the
degree-`el` Wigner-d rotation matrix; its incremental `dl` threading must be
"equivalent to building it from scratch at the final `el`").  Modelled by the
Turok engine's from-scratch `compute_full`, which the spec specifies to
produce the same matrix. -/
noncomputable def risbo_compute_full (β : ℝ) (L el : ℕ) : ℕ → ℕ → ℝ :=
  compute_full β el L

/-- The factor shared by all four transforms:
`(-1)^spin * sqrt((2el+1)/(4π)) * dl[m+L-1, -spin+L-1]` at ring angle `θ`
(0-based matrix indices; `-spin + L - 1 = L - 1 - spin`). -/
noncomputable def dfac (L : ℕ) (spin : ℤ) (θ : ℝ) (el : ℕ) (m : ℤ) : ℂ :=
  (-1 : ℂ) ^ spin * (Real.sqrt ((2 * el + 1) / (4 * Real.pi)) : ℝ)
    * (risbo_compute_full θ L el (m + L - 1).toNat ((L : ℤ) - 1 - spin).toNat : ℝ)

/-- The inverse-transform summand: `dfac * flm[elm2ind(el, m)]`. -/
noncomputable def tterm (flm : ℕ → ℂ) (L : ℕ) (spin : ℤ) (θ : ℝ) (el : ℕ) (m : ℤ) : ℂ :=
  dfac L spin θ el m * flm (elm2ind el m)

/-- `inverse_direct`: for each ring `t` and sample `p`, accumulate over
`el ∈ [0, L)` (skipping `el < |spin|`) and `m ∈ [-el, el]` the term
`(-1)^spin * elfactor * exp(i m phi_p) * dl[m+L-1, -spin+L-1] * flm[i]`. -/
noncomputable def inverse_direct (flm : ℕ → ℂ) (L : ℕ) (spin : ℤ) (scheme : Scheme) :
    ℕ → ℕ → ℂ := fun t p =>
  ∑ el ∈ Finset.range L,
    if spin.natAbs ≤ el then
      ∑ m ∈ Finset.Icc (-(el : ℤ)) (el : ℤ),
        Complex.exp (Complex.I * m * (phis_equiang L scheme p : ℝ))
          * tterm flm L spin (thetas L scheme t) el m
    else 0

/-- The first (O(L³)) stage shared by `inverse_sov` and `inverse_sov_fft`:
`fmt[m + L - 1, t] += (-1)^spin * elfactor * dl[m+L-1, -spin+L-1] * flm[i]`
accumulated over `el ≥ max(|spin|, |m|)`. -/
noncomputable def inverse_fmt (flm : ℕ → ℂ) (L : ℕ) (spin : ℤ) (scheme : Scheme)
    (m : ℤ) (t : ℕ) : ℂ :=
  ∑ el ∈ Finset.range L,
    if spin.natAbs ≤ el ∧ m.natAbs ≤ el then tterm flm L spin (thetas L scheme t) el m
    else 0

/-- `inverse_sov`: synthesis stage
`f[t, p] = Σ_{m=-(L-1)}^{L-1} fmt[m + L - 1, t] * exp(i m phi_p)`. -/
noncomputable def inverse_sov (flm : ℕ → ℂ) (L : ℕ) (spin : ℤ) (scheme : Scheme) :
    ℕ → ℕ → ℂ := fun t p =>
  ∑ m ∈ Finset.Icc (-((L - 1 : ℕ) : ℤ)) ((L - 1 : ℕ) : ℤ),
    inverse_fmt flm L spin scheme m t * Complex.exp (Complex.I * m * (phis_equiang L scheme p : ℝ))

/-- The frequency reindexing of `inverse_sov_fft`:
`fmt_shift[0:L] = fmt[L-1:2L-1]` (orders `m = 0..L-1`) and
`fmt_shift[L:2L-1] = fmt[0:L-1]` (orders `m = q - (2L-1) = -(L-1)..-1`). -/
noncomputable def fmt_shift (flm : ℕ → ℂ) (L : ℕ) (spin : ℤ) (scheme : Scheme)
    (q t : ℕ) : ℂ :=
  if q ≤ L - 1 then inverse_fmt flm L spin scheme (q : ℤ) t
  else inverse_fmt flm L spin scheme ((q : ℤ) - (2 * L - 1 : ℕ)) t

/-- `np.fft.ifft(x, norm="forward")` for a length-`N` sequence: the
unnormalised inverse DFT `X[p] = Σ_q x[q]·exp(2πi·q·p/N)` (the `1/N` factor
sits on the forward transform under this convention). -/
noncomputable def ifft_forward (x : ℕ → ℂ) (N p : ℕ) : ℂ :=
  ∑ q ∈ Finset.range N, x q * Complex.exp (2 * Real.pi * Complex.I * q * p / (N : ℝ))

/-- `inverse_sov_fft`: same first stage, then a length-`(2L-1)` forward-norm
inverse FFT per ring and a transpose. -/
noncomputable def inverse_sov_fft (flm : ℕ → ℂ) (L : ℕ) (spin : ℤ) (scheme : Scheme) :
    ℕ → ℕ → ℂ := fun t p =>
  ifft_forward (fun q => fmt_shift flm L spin scheme q t) (2 * L - 1) p

/-- `forward_direct` (validation passed, `sampling = "dh"`): the adjoint
accumulation `flm[i] += weight * (-1)^spin * elfactor * exp(-i m phi_p)
* dl[m+L-1, -spin+L-1] * f[t, p]` over rings and samples, with
`weight = weight_dh(theta, L) * 2π/(2L-1)`.  Offset `i` is written only for
valid `(el, m)` with `el ≥ |spin|`; in functional form the entry at a valid
flat offset `i` is recovered through `el = Nat.sqrt i`. -/
noncomputable def forward_direct (f : ℕ → ℕ → ℂ) (L : ℕ) (spin : ℤ) : ℕ → ℂ := fun i =>
  if i < ncoeff L ∧ spin.natAbs ≤ Nat.sqrt i then
    ∑ t ∈ Finset.range (ntheta L .dh),
      ∑ p ∈ Finset.range (nphi_equiang L .dh),
        (weight_dh (thetas L .dh t) L * (2 * Real.pi) / ((2 * L - 1 : ℕ) : ℝ) : ℝ)
          * Complex.exp (-(Complex.I) * ((i : ℤ) - (Nat.sqrt i : ℤ) ^ 2 - Nat.sqrt i)
              * (phis_equiang L .dh p : ℝ))
          * dfac L spin (thetas L .dh t) (Nat.sqrt i)
              ((i : ℤ) - (Nat.sqrt i : ℤ) ^ 2 - Nat.sqrt i)
          * f t p
  else 0

/-- `forward_direct` with its argument validation: any sampling scheme other
than `"dh"` raises (`UnsupportedSampling` class) before any computation. -/
noncomputable def forward_direct_checked (f : ℕ → ℕ → ℂ) (L : ℕ) (spin : ℤ)
    (scheme : Scheme) : Except S2Error (ℕ → ℂ) :=
  if scheme ≠ Scheme.dh then .error .unsupportedSampling
  else .ok (forward_direct f L spin)

/-- C9: `UnsupportedSampling`-class failures are raised as argument
validation before any computation and with no partial output:
`forward_direct` with any scheme other than `"dh"` fails with it, and
`compute_spin_slice` with `accelerate = True` fails (with an
argument-validation error) regardless of the other arguments. -/
theorem unsupported_sampling_fails_fast :
    (∀ (f : ℕ → ℕ → ℂ) (L : ℕ) (spin : ℤ) (scheme : Scheme), scheme ≠ Scheme.dh →
        forward_direct_checked f L spin scheme
          = Except.error S2Error.unsupportedSampling) ∧
    (∀ (β : ℝ) (el : ℤ) (L : ℕ) (spin : ℤ), ∃ e : S2Error,
        compute_spin_slice_checked β el L spin true = Except.error e) := by
  constructor
  · intro f L spin scheme h
    unfold forward_direct_checked
    rw [if_pos h]
  · intro β el L spin
    unfold compute_spin_slice_checked
    by_cases h : el < spin
    · exact ⟨S2Error.spinExceedsDegree, by rw [if_pos h]⟩
    · exact ⟨S2Error.unsupportedSampling, by rw [if_neg h, if_pos rfl]⟩

/-- Witness for C9: `forward_direct` at the `mw` scheme, and
`compute_spin_slice` with `accelerate = true` at concrete arguments. -/
theorem unsupported_sampling_fails_fast_witness :
    forward_direct_checked (fun _ _ => 0) 2 0 Scheme.mw
        = Except.error S2Error.unsupportedSampling ∧
    ∃ e : S2Error, compute_spin_slice_checked 0 1 2 0 true = Except.error e :=
  ⟨unsupported_sampling_fails_fast.1 (fun _ _ => 0) 2 0 Scheme.mw (by decide),
   unsupported_sampling_fails_fast.2 0 1 2 0⟩

/-- Counterexample to C5: the source checks `el < spin` with the *signed*
spin, so for `spin = -1` the call with `el = |spin| - 1 = 0` (and `L = 2`,
`beta = 0`) does not fail with `SpinExceedsDegree`: it passes all three
validations and then crashes with an uncaught `IndexError`
(`dl[l - spin] = dl[1]` on the length-1 array), modelled `.ok none`. -/
theorem spin_boundary_claim_cex :
    compute_spin_slice_checked 0 (|(-1 : ℤ)| - 1) 2 (-1) false = Except.ok none := by
  rw [compute_spin_slice_checked_ok 0 (|(-1 : ℤ)| - 1) 2 (-1) (by decide) (by decide)]
  unfold compute_spin_slice_run turok_quarter_spin_run
  rw [if_pos (by simp),
    npIdx_oob (2 * (|(-1 : ℤ)| - 1).toNat + 1)
      ((((|(-1 : ℤ)| - 1).toNat : ℕ) : ℤ) - (-1)) (by decide)]
  rfl

/-- C5 (amended): `compute_spin_slice` with `el = |spin|` succeeds provided
`|spin| < L`.  With `el = |spin| - 1`: for `spin ≥ 0` it fails with
`SpinExceedsDegree`; for `spin < 0` the validation compares `el < spin` with
the *signed* spin and never fires — the call escapes validation and
(a) at `beta = 0` crashes with an uncaught `IndexError` (`dl[l - spin]` is
one past the end of the length-`(2l+1)` array), (b) at `beta ≥ pi` returns a
vector (numpy silently wraps the negative index `l + spin = -1` to `2l`),
(c) at generic `beta` with `el = 0` (`spin = -1`) returns the scalar-1
branch, and (d) at generic `beta` with `el ≥ 1` (`spin < -1`) crashes with an
uncaught `IndexError` (the second recursion loop writes row `2l+1`) — never
`SpinExceedsDegree`.  With `el = L` it fails with `InvalidBandlimit`
provided `spin ≤ L` (otherwise `SpinExceedsDegree` fires first). -/
theorem spin_boundary (β : ℝ) (L : ℕ) (spin : ℤ) :
    (|spin| < L → ∃ v, compute_spin_slice_checked β |spin| L spin false
        = Except.ok (some v)) ∧
    (0 ≤ spin → compute_spin_slice_checked β (|spin| - 1) L spin false
        = Except.error S2Error.spinExceedsDegree) ∧
    (spin < 0 → |spin| - 1 < L →
      (|β| ≤ 0 →
        compute_spin_slice_checked β (|spin| - 1) L spin false = Except.ok none) ∧
      (Real.pi ≤ |β| → ∃ v,
        compute_spin_slice_checked β (|spin| - 1) L spin false = Except.ok (some v)) ∧
      (0 < |β| → |β| < Real.pi → spin = -1 → ∃ v,
        compute_spin_slice_checked β (|spin| - 1) L spin false = Except.ok (some v)) ∧
      (0 < |β| → |β| < Real.pi → spin < -1 →
        compute_spin_slice_checked β (|spin| - 1) L spin false = Except.ok none)) ∧
    (spin ≤ L → compute_spin_slice_checked β (L : ℕ) L spin false
        = Except.error S2Error.invalidBandlimit) := by
  simp only [Int.abs_eq_natAbs]
  refine ⟨fun h => ?_, fun h => ?_, fun hneg hlt => ⟨fun h0 => ?_, fun hpi => ?_,
    fun hb1 hb2 hm => ?_, fun hb1 hb2 hm => ?_⟩, fun h => ?_⟩
  · rw [compute_spin_slice_checked_ok β ((spin.natAbs : ℕ) : ℤ) L spin (by omega) (by omega)]
    unfold compute_spin_slice_run
    rw [turok_quarter_spin_run_eq β (((spin.natAbs : ℕ) : ℤ)).toNat spin (by omega),
      Option.map_some']
    exact ⟨_, rfl⟩
  · unfold compute_spin_slice_checked
    rw [if_pos (by omega)]
  · rw [compute_spin_slice_checked_ok β (((spin.natAbs : ℕ) : ℤ) - 1) L spin (by omega)
      (by omega)]
    unfold compute_spin_slice_run turok_quarter_spin_run
    rw [if_pos h0,
      npIdx_oob (2 * (((spin.natAbs : ℕ) : ℤ) - 1).toNat + 1)
        ((((((spin.natAbs : ℕ) : ℤ) - 1).toNat : ℕ) : ℤ) - spin) (by omega)]
    rfl
  · have h0 : ¬ |β| ≤ 0 := not_le.mpr (lt_of_lt_of_le Real.pi_pos hpi)
    rw [compute_spin_slice_checked_ok β (((spin.natAbs : ℕ) : ℤ) - 1) L spin (by omega)
      (by omega)]
    unfold compute_spin_slice_run turok_quarter_spin_run
    rw [if_neg h0, if_pos hpi,
      npIdx_wrap (2 * (((spin.natAbs : ℕ) : ℤ) - 1).toNat + 1)
        ((((((spin.natAbs : ℕ) : ℤ) - 1).toNat : ℕ) : ℤ) + spin) (by omega) (by omega),
      Option.map_some']
    exact ⟨_, rfl⟩
  · rw [compute_spin_slice_checked_ok β (((spin.natAbs : ℕ) : ℤ) - 1) L spin (by omega)
      (by omega)]
    unfold compute_spin_slice_run turok_quarter_spin_run
    rw [if_neg (not_le.mpr hb1), if_neg (not_le.mpr hb2),
      if_pos (show (((spin.natAbs : ℕ) : ℤ) - 1).toNat = 0 by omega)]
    exact ⟨_, rfl⟩
  · rw [compute_spin_slice_checked_ok β (((spin.natAbs : ℕ) : ℤ) - 1) L spin (by omega)
      (by omega)]
    unfold compute_spin_slice_run turok_quarter_spin_run
    rw [if_neg (not_le.mpr hb1), if_neg (not_le.mpr hb2),
      if_neg (show ¬ (((spin.natAbs : ℕ) : ℤ) - 1).toNat = 0 by omega),
      if_neg (show ¬ spin.natAbs ≤ (((spin.natAbs : ℕ) : ℤ) - 1).toNat by omega)]
    rfl
  · unfold compute_spin_slice_checked
    rw [if_neg (by omega), if_neg (by decide), if_pos (by omega)]

/-- Witness for C5 (amended), exercising every conjunct: `L = 3`, spins `2`
and `-2`, and for the negative spin all four run-time cases (`β = 0`,
`β = π`, generic `β = 1` with `spin = -1`, generic `β = 1` with
`spin = -2`). -/
theorem spin_boundary_witness :
    (∃ v, compute_spin_slice_checked 0 |(-2 : ℤ)| 3 (-2) false = Except.ok (some v)) ∧
    (compute_spin_slice_checked 0 (|(2 : ℤ)| - 1) 3 2 false
        = Except.error S2Error.spinExceedsDegree) ∧
    (compute_spin_slice_checked 0 (|(-2 : ℤ)| - 1) 3 (-2) false = Except.ok none) ∧
    (∃ v, compute_spin_slice_checked Real.pi (|(-2 : ℤ)| - 1) 3 (-2) false
        = Except.ok (some v)) ∧
    (∃ v, compute_spin_slice_checked 1 (|(-1 : ℤ)| - 1) 2 (-1) false
        = Except.ok (some v)) ∧
    (compute_spin_slice_checked 1 (|(-2 : ℤ)| - 1) 3 (-2) false = Except.ok none) ∧
    (compute_spin_slice_checked 0 ((3 : ℕ) : ℤ) 3 2 false
        = Except.error S2Error.invalidBandlimit) :=
  ⟨(spin_boundary 0 3 (-2)).1 (by decide),
   (spin_boundary 0 3 2).2.1 (by decide),
   ((spin_boundary 0 3 (-2)).2.2.1 (by decide) (by decide)).1 (by simp),
   ((spin_boundary Real.pi 3 (-2)).2.2.1 (by decide) (by decide)).2.1
     (by rw [abs_of_pos Real.pi_pos]),
   ((spin_boundary 1 2 (-1)).2.2.1 (by decide) (by decide)).2.2.1
     (by rw [abs_one]; exact one_pos)
     (by rw [abs_one]; exact lt_trans (by norm_num : (1:ℝ) < 3) Real.pi_gt_three) rfl,
   ((spin_boundary 1 3 (-2)).2.2.1 (by decide) (by decide)).2.2.2
     (by rw [abs_one]; exact one_pos)
     (by rw [abs_one]; exact lt_trans (by norm_num : (1:ℝ) < 3) Real.pi_gt_three) (by decide),
   (spin_boundary 0 3 2).2.2.2 (by decide)⟩

/-- Exchanging the summation order between the direct double sum (per `el`,
inner sum over its valid orders) and the separation-of-variables order
(per `m`, inner sum over contributing degrees). -/
lemma sum_swap_helper (L a : ℕ) (E : ℤ → ℂ) (T : ℕ → ℤ → ℂ) :
    ∑ m ∈ Finset.Icc (-((L - 1 : ℕ) : ℤ)) ((L - 1 : ℕ) : ℤ),
      (∑ el ∈ Finset.range L, if a ≤ el ∧ m.natAbs ≤ el then T el m else 0) * E m
    = ∑ el ∈ Finset.range L,
        if a ≤ el then ∑ m ∈ Finset.Icc (-(el : ℤ)) (el : ℤ), E m * T el m else 0 := by
  calc
    ∑ m ∈ Finset.Icc (-((L - 1 : ℕ) : ℤ)) ((L - 1 : ℕ) : ℤ),
        (∑ el ∈ Finset.range L, if a ≤ el ∧ m.natAbs ≤ el then T el m else 0) * E m
      = ∑ m ∈ Finset.Icc (-((L - 1 : ℕ) : ℤ)) ((L - 1 : ℕ) : ℤ), ∑ el ∈ Finset.range L,
          (if a ≤ el ∧ m.natAbs ≤ el then E m * T el m else 0) := by
        refine Finset.sum_congr rfl fun m _ => ?_
        rw [Finset.sum_mul]
        refine Finset.sum_congr rfl fun el _ => ?_
        by_cases h : a ≤ el ∧ m.natAbs ≤ el
        · rw [if_pos h, if_pos h, mul_comm]
        · rw [if_neg h, if_neg h, zero_mul]
    _ = ∑ el ∈ Finset.range L, ∑ m ∈ Finset.Icc (-((L - 1 : ℕ) : ℤ)) ((L - 1 : ℕ) : ℤ),
          (if a ≤ el ∧ m.natAbs ≤ el then E m * T el m else 0) := Finset.sum_comm
    _ = ∑ el ∈ Finset.range L,
          if a ≤ el then ∑ m ∈ Finset.Icc (-(el : ℤ)) (el : ℤ), E m * T el m else 0 := by
        refine Finset.sum_congr rfl fun el hel => ?_
        rw [Finset.mem_range] at hel
        by_cases h : a ≤ el
        · rw [if_pos h]
          calc
            ∑ m ∈ Finset.Icc (-((L - 1 : ℕ) : ℤ)) ((L - 1 : ℕ) : ℤ),
                (if a ≤ el ∧ m.natAbs ≤ el then E m * T el m else 0)
              = ∑ m ∈ Finset.Icc (-((L - 1 : ℕ) : ℤ)) ((L - 1 : ℕ) : ℤ),
                  (if m ∈ Finset.Icc (-(el : ℤ)) (el : ℤ) then E m * T el m else 0) := by
                refine Finset.sum_congr rfl fun m _ => ?_
                refine if_congr ?_ rfl rfl
                rw [Finset.mem_Icc]
                constructor
                · intro hh; omega
                · intro hh; exact ⟨h, by omega⟩
            _ = ∑ m ∈ Finset.Icc (-((L - 1 : ℕ) : ℤ)) ((L - 1 : ℕ) : ℤ)
                  ∩ Finset.Icc (-(el : ℤ)) (el : ℤ), E m * T el m :=
                Finset.sum_ite_mem _ _ _
            _ = ∑ m ∈ Finset.Icc (-(el : ℤ)) (el : ℤ), E m * T el m := by
                rw [Finset.inter_eq_right.mpr
                  (Finset.Icc_subset_Icc (by omega) (by omega))]
        · rw [if_neg h]
          exact Finset.sum_eq_zero fun m _ => if_neg fun hc => h hc.1

/-- C1 helper: the separation-of-variables inverse equals the direct inverse
(exact summation reordering). -/
lemma sov_eq_direct (flm : ℕ → ℂ) (L : ℕ) (spin : ℤ) (scheme : Scheme) :
    inverse_sov flm L spin scheme = inverse_direct flm L spin scheme := by
  funext t p
  unfold inverse_sov inverse_direct inverse_fmt
  exact sum_swap_helper L spin.natAbs
    (fun m => Complex.exp (Complex.I * m * (phis_equiang L scheme p : ℝ)))
    (fun el m => tterm flm L spin (thetas L scheme t) el m)

/-- The frequency-domain synthesis: an unnormalised inverse DFT over the
zero-based frequencies `q ∈ [0, 2L-1)` (non-negative orders first, then the
negative orders shifted by `2L-1`) equals the centred sum over orders
`m ∈ [-(L-1), L-1]` at azimuth `phi_p = 2πp/(2L-1)`. -/
lemma dft_reindex (L p : ℕ) (hL : 1 ≤ L) (G : ℤ → ℂ) :
    ∑ q ∈ Finset.range (2 * L - 1),
      (if q ≤ L - 1 then G (q : ℤ) else G ((q : ℤ) - ((2 * L - 1 : ℕ) : ℤ)))
        * Complex.exp (2 * Real.pi * Complex.I * q * p / ((2 * L - 1 : ℕ) : ℝ))
    = ∑ m ∈ Finset.Icc (-((L - 1 : ℕ) : ℤ)) ((L - 1 : ℕ) : ℤ),
        G m * Complex.exp (Complex.I * m
          * ((2 * Real.pi * p / ((2 * L - 1 : ℕ) : ℝ) : ℝ) : ℂ)) := by
  have hN : ((2 * L - 1 : ℕ) : ℂ) ≠ 0 := Nat.cast_ne_zero.mpr (by omega)
  have hNR : ((2 * L - 1 : ℕ) : ℝ) ≠ 0 := Nat.cast_ne_zero.mpr (by omega)
  rw [Finset.range_eq_Ico,
    ← Finset.Ico_union_Ico_eq_Ico (Nat.zero_le L) (by omega : L ≤ 2 * L - 1),
    Finset.sum_union (Finset.Ico_disjoint_Ico_consecutive 0 L (2 * L - 1))]
  rw [show Finset.Icc (-((L - 1 : ℕ) : ℤ)) ((L - 1 : ℕ) : ℤ)
        = Finset.Ico (-((L - 1 : ℕ) : ℤ)) ((L : ℕ) : ℤ) by
      ext x
      simp only [Finset.mem_Icc, Finset.mem_Ico]
      omega]
  rw [← Finset.Ico_union_Ico_eq_Ico (show -((L - 1 : ℕ) : ℤ) ≤ 0 by omega)
      (show (0 : ℤ) ≤ ((L : ℕ) : ℤ) by omega),
    Finset.sum_union (Finset.Ico_disjoint_Ico_consecutive _ 0 _)]
  have h1 : ∑ q ∈ Finset.Ico 0 L,
      (if q ≤ L - 1 then G (q : ℤ) else G ((q : ℤ) - ((2 * L - 1 : ℕ) : ℤ)))
        * Complex.exp (2 * Real.pi * Complex.I * q * p / ((2 * L - 1 : ℕ) : ℝ))
      = ∑ m ∈ Finset.Ico (0 : ℤ) ((L : ℕ) : ℤ),
          G m * Complex.exp (Complex.I * m
            * ((2 * Real.pi * p / ((2 * L - 1 : ℕ) : ℝ) : ℝ) : ℂ)) := by
    refine Finset.sum_nbij' (fun q => (q : ℤ)) (fun m => m.toNat) ?_ ?_ ?_ ?_ ?_
    · intro q hq
      rw [Finset.mem_Ico] at hq
      show (q : ℤ) ∈ Finset.Ico (0 : ℤ) ((L : ℕ) : ℤ)
      rw [Finset.mem_Ico]
      omega
    · intro m hm
      rw [Finset.mem_Ico] at hm
      show m.toNat ∈ Finset.Ico 0 L
      rw [Finset.mem_Ico]
      omega
    · intro q _
      exact Int.toNat_natCast q
    · intro m hm
      rw [Finset.mem_Ico] at hm
      exact Int.toNat_of_nonneg hm.1
    · intro q hq
      rw [Finset.mem_Ico] at hq
      rw [if_pos (by omega)]
      congr 1
      congr 1
      push_cast
      ring
  have h2 : ∑ q ∈ Finset.Ico L (2 * L - 1),
      (if q ≤ L - 1 then G (q : ℤ) else G ((q : ℤ) - ((2 * L - 1 : ℕ) : ℤ)))
        * Complex.exp (2 * Real.pi * Complex.I * q * p / ((2 * L - 1 : ℕ) : ℝ))
      = ∑ m ∈ Finset.Ico (-((L - 1 : ℕ) : ℤ)) (0 : ℤ),
          G m * Complex.exp (Complex.I * m
            * ((2 * Real.pi * p / ((2 * L - 1 : ℕ) : ℝ) : ℝ) : ℂ)) := by
    refine Finset.sum_nbij' (fun q => (q : ℤ) - ((2 * L - 1 : ℕ) : ℤ))
      (fun m => (m + ((2 * L - 1 : ℕ) : ℤ)).toNat) ?_ ?_ ?_ ?_ ?_
    · intro q hq
      rw [Finset.mem_Ico] at hq
      show (q : ℤ) - ((2 * L - 1 : ℕ) : ℤ) ∈ Finset.Ico (-((L - 1 : ℕ) : ℤ)) (0 : ℤ)
      rw [Finset.mem_Ico]
      omega
    · intro m hm
      rw [Finset.mem_Ico] at hm
      show (m + ((2 * L - 1 : ℕ) : ℤ)).toNat ∈ Finset.Ico L (2 * L - 1)
      rw [Finset.mem_Ico]
      omega
    · intro q hq
      rw [Finset.mem_Ico] at hq
      show ((q : ℤ) - ((2 * L - 1 : ℕ) : ℤ) + ((2 * L - 1 : ℕ) : ℤ)).toNat = q
      omega
    · intro m hm
      rw [Finset.mem_Ico] at hm
      show ((((m + ((2 * L - 1 : ℕ) : ℤ)).toNat : ℕ)) : ℤ) - ((2 * L - 1 : ℕ) : ℤ) = m
      omega
    · intro q hq
      rw [Finset.mem_Ico] at hq
      rw [if_neg (by omega)]
      congr 1
      rw [Complex.exp_eq_exp_iff_exists_int]
      refine ⟨p, ?_⟩
      have hq2 : L ≤ q ∧ q < 2 * L - 1 := hq
      generalize hM : (2 * L - 1 : ℕ) = M at hN hNR hq2 ⊢
      push_cast
      field_simp
      ring
  rw [h1, h2, add_comm]

/-- C1 helper: the FFT-synthesis inverse equals the separation-of-variables
inverse. -/
lemma fft_eq_sov (flm : ℕ → ℂ) (L : ℕ) (hL : 1 ≤ L) (spin : ℤ) (scheme : Scheme) :
    inverse_sov_fft flm L spin scheme = inverse_sov flm L spin scheme := by
  funext t p
  unfold inverse_sov_fft ifft_forward fmt_shift inverse_sov phis_equiang
  exact dft_reindex L p hL (fun m => inverse_fmt flm L spin scheme m t)

/-- The two `cp2` initialisations compute the same reals:
`cpi[m-1]/cpi[m-2] = cpi[m-1] * (1/cpi[m-2])`. -/
lemma cp2spin_eq_cp2full (l : ℕ) : cp2spin l = cp2full l := by
  funext j
  unfold cp2spin cp2full cp
  rw [mul_one_div]

/-- On the rows its two loops fill (`l-a ≤ r ≤ l+a`, quarter columns), the
partially-built `turok_quarter_spin` matrix agrees with the full
`turok_quarter_main` quarter: the per-row code is identical, only the `cp2`
initialisation differs syntactically. -/
lemma mat_agree (β : ℝ) (l a : ℕ) (ha : a ≤ l) (r c : ℕ)
    (hr1 : l - a ≤ r) (hr2 : r ≤ l + a)
    (hc1 : r ≤ l → c ≤ r) (hc2 : l + 1 ≤ r → c ≤ 2 * l - r) :
    turok_quarter_spin_mat β l a r c = turok_quarter_main β l r c := by
  unfold turok_quarter_spin_mat turok_quarter_main
  rcases Nat.lt_or_ge r (l + 1) with hr | hr
  · rw [if_pos ⟨hr1, by omega⟩]
    have hcr : c ≤ r := hc1 (by omega)
    rcases Nat.eq_zero_or_pos r with h0 | h0
    · subst h0
      have hc0 : c = 0 := by omega
      subst hc0
      rw [if_pos rfl, if_pos rfl]
      unfold quarterRowLower
      simp [rowAux]
    · rw [if_neg (by omega), if_pos (by omega), if_pos hcr, cp2spin_eq_cp2full]
  · have hcr : c ≤ 2 * l - r := hc2 hr
    rw [if_neg (by omega), if_pos ⟨hr, hr2⟩]
    rcases Nat.lt_or_ge r (2 * l) with h2 | h2
    · rw [if_neg (by omega), if_neg (by omega), if_pos (by omega), if_pos hcr,
        cp2spin_eq_cp2full]
    · have hr2l : r = 2 * l := by omega
      subst hr2l
      have hc0 : c = 0 := by omega
      subst hc0
      rw [if_neg (by omega), if_neg (by omega), if_neg (by omega), if_pos rfl]
      unfold quarterRowUpper
      simp [rowAux]

/-- Row `l - spin` of `turok_fill` applied to the partially-filled
`turok_quarter_spin` matrix equals the same row of `turok_fill` applied to
the full quarter: every cell the reflection passes consult for that row lies
in the rows both loops fill identically. -/
lemma fill_row_agree (β : ℝ) (l : ℕ) (spin : ℤ) (hs : spin.natAbs ≤ l)
    (c : ℕ) (hc : c ≤ 2 * l) :
    turok_fill (turok_quarter_spin_mat β l spin.natAbs) l ((l : ℤ) - spin).toNat c
      = turok_fill (turok_quarter_main β l) l ((l : ℤ) - spin).toNat c := by
  set a := spin.natAbs with hadef
  set R := ((l : ℤ) - spin).toNat with hRdef
  have hR1 : l - a ≤ R := by omega
  have hR2 : R ≤ l + a := by omega
  have hRl : R ≤ 2 * l := by omega
  by_cases h1 : c ≤ R ∧ R + c ≤ 2 * l
  · rw [fill_quarter _ _ _ _ h1.1 h1.2, fill_quarter _ _ _ _ h1.1 h1.2]
    exact mat_agree β l a hs R c hR1 hR2 (fun _ => h1.1) (fun h => by omega)
  · by_cases h2 : R < c ∧ c ≤ l
    · rw [fill_upper_left _ _ _ _ h2.1 h2.2, fill_upper_left _ _ _ _ h2.1 h2.2,
        mat_agree β l a hs c R (by omega) (by omega) (fun h => by omega)
          (fun h => by omega)]
    · by_cases h3 : c ≤ l
      · rw [fill_lower_left _ _ _ _ h3 (by omega) hRl (by omega),
          fill_lower_left _ _ _ _ h3 (by omega) hRl (by omega),
          mat_agree β l a hs (2 * l - c) (2 * l - R) (by omega) (by omega)
            (fun h => by omega) (fun h => by omega)]
      · by_cases h4 : R + c ≤ 2 * l
        · rw [fill_right_top _ _ _ _ (by omega) hc h4,
            fill_right_top _ _ _ _ (by omega) hc h4,
            mat_agree β l a hs c R (by omega) (by omega) (fun h => by omega)
              (fun h => by omega)]
        · by_cases h5 : c ≤ R
          · rw [fill_right_bottom _ _ _ _ (by omega) h5 hRl,
              fill_right_bottom _ _ _ _ (by omega) h5 hRl,
              mat_agree β l a hs (2 * l - c) (2 * l - R) (by omega) (by omega)
                (fun h => by omega) (fun h => by omega)]
          · rw [fill_right_mid _ _ _ _ (by omega) hc (by omega) (by omega),
              fill_right_mid _ _ _ _ (by omega) hc (by omega) (by omega),
              mat_agree β l a hs (2 * l - R) (2 * l - c) (by omega) (by omega)
                (fun h => by omega) (fun h => by omega)]

/-- `turok_quarter_spin(beta, l, spin)` is row `l - spin` of
`turok_fill(turok_quarter(beta, l), l)`, in every branch. -/
lemma quarter_spin_eq_fill_row (β : ℝ) (l : ℕ) (spin : ℤ) (hs : spin.natAbs ≤ l)
    (c : ℕ) (hc : c ≤ 2 * l) :
    turok_quarter_spin β l spin c
      = turok_fill (turok_quarter β l) l ((l : ℤ) - spin).toNat c := by
  unfold turok_quarter_spin turok_quarter
  by_cases h0 : |β| ≤ 0
  · simp only [if_pos h0, fill_id]
    by_cases he : (c : ℤ) = (l : ℤ) - spin
    · rw [if_pos he, if_pos (by omega)]
    · rw [if_neg he, if_neg (by omega)]
  · simp only [if_neg h0]
    by_cases hpi : Real.pi ≤ |β|
    · simp only [if_pos hpi, fill_antidiag]
      by_cases he : (c : ℤ) = (l : ℤ) + spin
      · rw [if_pos he, if_pos (by omega)]
        have hce : ((l : ℤ) + spin) = (c : ℤ) := he.symm
        rw [hce, zpow_natCast]
      · rw [if_neg he, if_neg (by omega)]
    · simp only [if_neg hpi]
      by_cases hl : l = 0
      · subst hl
        have hsp : spin = 0 := by omega
        subst hsp
        have hc0 : c = 0 := by omega
        subst hc0
        have hX : ((((0 : ℕ) : ℤ)) - 0).toNat = 0 := rfl
        rw [hX, fill_quarter _ _ _ _ (le_refl 0) (by omega)]
        simp
      · simp only [if_neg hl]
        exact fill_row_agree β l spin hs c hc

/-- Counterexample to C4: at `beta = 0`, `el = 1`, `L = 2`, `spin = 1` the
vector returned by `compute_spin_slice` is not the column of the full matrix
at second index `spin` (global column `L - 1 + spin = 2`): the slice has its
`1` at index `l - spin = 0`, the column at index `l + spin = 2`. -/
theorem spin_slice_not_column_cex :
    ¬ (∀ j, compute_spin_slice 0 1 2 1 j = compute_full 0 1 2 j (2 - 1 + 1)) := by
  intro h
  have e1 : compute_spin_slice 0 1 2 1 0 = 1 := by
    unfold compute_spin_slice
    rw [if_pos (by omega)]
    unfold turok_quarter_spin
    rw [if_pos (by simp)]
    norm_num
  have e2 : compute_full 0 1 2 0 (2 - 1 + 1) = 0 := by
    unfold compute_full
    rw [if_pos (by omega), turok_quarter_zero, fill_id]
    norm_num
  have := (h 0).symm.trans e1
  rw [e2] at this
  exact zero_ne_one this

/-- C4 (amended): for every `beta`, `0 ≤ el < L` and `|spin| ≤ el`, the
vector returned by `compute_spin_slice(beta, el, L, spin)` equals the single
*row* of `compute_full(beta, el, L)` at fixed first index `-spin` (global row
`L - 1 - spin`) — equivalently, by the Wigner-d symmetries, the reversal of
the column at second index `spin`. -/
theorem spin_slice_is_row_of_full (β : ℝ) (el L : ℕ) (spin : ℤ) (hL : el < L)
    (hs : spin.natAbs ≤ el) :
    compute_spin_slice β el L spin
      = fun j => compute_full β el L ((L : ℤ) - 1 - spin).toNat j := by
  funext j
  unfold compute_spin_slice compute_full
  by_cases hj : L - 1 - el ≤ j ∧ j ≤ L - 1 + el
  · rw [if_pos hj, if_pos (by omega)]
    have hRo : ((L : ℤ) - 1 - spin).toNat - (L - 1 - el) = ((el : ℤ) - spin).toNat := by
      omega
    rw [hRo]
    exact quarter_spin_eq_fill_row β el spin hs (j - (L - 1 - el)) (by omega)
  · rw [if_neg hj, if_neg (by omega)]

/-- Witness for C4 (amended) at `beta = 0`, `el = 1`, `L = 2`, `spin = 1`. -/
theorem spin_slice_is_row_of_full_witness :
    compute_spin_slice 0 1 2 1
      = fun j => compute_full 0 1 2 (((2 : ℕ) : ℤ) - 1 - 1).toNat j :=
  spin_slice_is_row_of_full 0 1 2 1 (by decide) (by decide)

/-- C1: for every coefficient vector `flm`, bandlimit `L ≥ 1`, spin, and
sampling scheme (equiangular-default `mw`, equiangular-with-pole `mwss`,
driscoll-healy `dh`), the three inverse transforms produce the same angular
sample grid — exact equality in the exact-arithmetic model, hence agreement
within `1e-13`. -/
theorem inverse_variants_agree (flm : ℕ → ℂ) (L : ℕ) (hL : 1 ≤ L) (spin : ℤ)
    (scheme : Scheme) :
    inverse_sov flm L spin scheme = inverse_direct flm L spin scheme ∧
    inverse_sov_fft flm L spin scheme = inverse_direct flm L spin scheme :=
  ⟨sov_eq_direct flm L spin scheme,
   (fft_eq_sov flm L hL spin scheme).trans (sov_eq_direct flm L spin scheme)⟩

/-- Witness for C1 at `flm = 1`, `L = 2`, `spin = 1`, scheme `dh`. -/
theorem inverse_variants_agree_witness :
    inverse_sov (fun _ => 1) 2 1 Scheme.dh = inverse_direct (fun _ => 1) 2 1 Scheme.dh ∧
    inverse_sov_fft (fun _ => 1) 2 1 Scheme.dh
      = inverse_direct (fun _ => 1) 2 1 Scheme.dh :=
  inverse_variants_agree (fun _ => 1) 2 (by decide) 1 Scheme.dh

lemma elm2ind_ge_sq (el : ℕ) (m : ℤ) (hm : -(el : ℤ) ≤ m) : el * el ≤ elm2ind el m := by
  have h := elm2ind_cast el m hm
  have hsq : ((el : ℤ)) ^ 2 = (el : ℤ) * el := sq ((el : ℤ))
  have h2 : ((el * el : ℕ) : ℤ) ≤ (elm2ind el m : ℤ) := by
    push_cast
    rw [h, hsq]
    linarith
  exact_mod_cast h2

/-- C8 helper: the transform summand reads `flm` only at offsets
`elm2ind el m ≥ el² ≥ spin²`, so zeroing offsets below `spin²` leaves it
unchanged. -/
lemma tterm_low_degree (flm : ℕ → ℂ) (L : ℕ) (spin : ℤ) (θ : ℝ) (el : ℕ) (m : ℤ)
    (ha : spin.natAbs ≤ el) (hm : -(el : ℤ) ≤ m) :
    tterm (fun i => if i < spin.natAbs * spin.natAbs then 0 else flm i) L spin θ el m
      = tterm flm L spin θ el m := by
  unfold tterm
  congr 1
  have h1 := elm2ind_ge_sq el m hm
  have h2 : spin.natAbs * spin.natAbs ≤ el * el := Nat.mul_le_mul ha ha
  exact if_neg (by omega)

lemma fmt_low_degree (flm : ℕ → ℂ) (L : ℕ) (spin : ℤ) (scheme : Scheme) :
    inverse_fmt (fun i => if i < spin.natAbs * spin.natAbs then 0 else flm i) L spin scheme
      = inverse_fmt flm L spin scheme := by
  funext m t
  unfold inverse_fmt
  refine Finset.sum_congr rfl fun el _ => ?_
  by_cases h : spin.natAbs ≤ el ∧ m.natAbs ≤ el
  · rw [if_pos h, if_pos h, tterm_low_degree flm L spin _ el m h.1 (by omega)]
  · rw [if_neg h, if_neg h]

/-- C8: for every spin with `|spin| > 0` and each inverse variant,
coefficients at degrees `el < |spin|` (flat offsets `< spin²`) contribute
nothing: replacing them by zero leaves the output grid identical. -/
theorem low_degree_coefficients_inert (flm : ℕ → ℂ) (L : ℕ) (spin : ℤ)
    (_hs : spin ≠ 0) (scheme : Scheme) :
    inverse_direct (fun i => if i < spin.natAbs * spin.natAbs then 0 else flm i)
        L spin scheme = inverse_direct flm L spin scheme ∧
    inverse_sov (fun i => if i < spin.natAbs * spin.natAbs then 0 else flm i)
        L spin scheme = inverse_sov flm L spin scheme ∧
    inverse_sov_fft (fun i => if i < spin.natAbs * spin.natAbs then 0 else flm i)
        L spin scheme = inverse_sov_fft flm L spin scheme := by
  refine ⟨?_, ?_, ?_⟩
  · funext t p
    unfold inverse_direct
    refine Finset.sum_congr rfl fun el _ => ?_
    by_cases h : spin.natAbs ≤ el
    · rw [if_pos h, if_pos h]
      refine Finset.sum_congr rfl fun m hm => ?_
      rw [Finset.mem_Icc] at hm
      rw [tterm_low_degree flm L spin _ el m h hm.1]
    · rw [if_neg h, if_neg h]
  · funext t p
    unfold inverse_sov
    rw [fmt_low_degree]
  · funext t p
    unfold inverse_sov_fft ifft_forward fmt_shift
    rw [fmt_low_degree]

/-- Witness for C8 at `flm = 1`, `L = 2`, `spin = 1`, scheme `mw`. -/
theorem low_degree_coefficients_inert_witness :
    inverse_direct (fun i => if i < (1 : ℤ).natAbs * (1 : ℤ).natAbs then 0 else (1 : ℂ))
        2 1 Scheme.mw = inverse_direct (fun _ => (1 : ℂ)) 2 1 Scheme.mw :=
  (low_degree_coefficients_inert (fun _ => (1 : ℂ)) 2 1 (by decide) Scheme.mw).1

end S2fft
